import Mathlib

/-!
Verification of the citation-replacement transform, the research-pipeline
declaration and the deployment-metadata record of this repository.

The citation transform (`app/callbacks/citation_replacement.py`) is embedded
at character level: the Python regex
`<cite\s+source\s*=\s*["']?\s*(src-\d+)\s*["']?\s*/>` is a deterministic
pattern (at every quantifier the character class of the continuation is
disjoint from the class being repeated), so Python's leftmost backtracking
match coincides with the greedy one-pass matcher `matchCiteAt` below, and
`re.sub` coincides with the left-to-right scanner `subCiteF`.
-/

namespace AdkSpec

/-- Python `\s` on the ASCII range (the inputs of all claims are ASCII). -/
def isWs (c : Char) : Bool :=
  c = ' ' || c = '\t' || c = '\n' || c = '\r' || c = Char.ofNat 11 || c = Char.ofNat 12

/-- Python `\d` on the ASCII range. -/
def isDigitCh (c : Char) : Bool :=
  '0' ≤ c && c ≤ '9'

/-- The two quote characters accepted by the tag pattern: `"` and `'`. -/
def isQuoteCh (c : Char) : Bool :=
  c = Char.ofNat 34 || c = Char.ofNat 39

/-- The punctuation class `[.,;:]` of the second substitution. -/
def isPunctCh (c : Char) : Bool :=
  c = '.' || c = ',' || c = ';' || c = ':'

/-- Characters that can occur in a well-formed cite tag (used only in proofs). -/
def tagChar (c : Char) : Bool :=
  isWs c || isDigitCh c || isQuoteCh c ||
    c ∈ ['<', 'c', 'i', 't', 'e', 's', 'o', 'u', 'r', '-', '=', '/', '>']

/-- Expect the literal `lit` at the head of `s`, returning the remainder. -/
def expectLit : List Char → List Char → Option (List Char)
  | [], s => some s
  | _ :: _, [] => none
  | l :: lit, c :: s => if c = l then expectLit lit s else none

/-- Consume an optional single quote character: the consumed part. -/
def takeQuote : List Char → List Char
  | [] => []
  | c :: _ => if isQuoteCh c then [c] else []

/-- Consume an optional single quote character: the remainder. -/
def dropQuote : List Char → List Char
  | [] => []
  | c :: rest => if isQuoteCh c then rest else c :: rest

def litCite : List Char := ['<', 'c', 'i', 't', 'e']
def litSource : List Char := ['s', 'o', 'u', 'r', 'c', 'e']
def litSrc : List Char := ['s', 'r', 'c', '-']
def litClose : List Char := ['/', '>']

/-- Greedy matcher for the tag pattern
`<cite\s+source\s*=\s*["']?\s*(src-\d+)\s*["']?\s*/>` at the head of `s`.
Returns (whole match, group 1 as a string, remainder). -/
def matchCiteAt (s : List Char) : Option (List Char × String × List Char) :=
  match expectLit litCite s with
  | none => none
  | some s1 =>
    let w1 := s1.takeWhile isWs
    let s2 := s1.dropWhile isWs
    if w1.isEmpty then none else
    match expectLit litSource s2 with
    | none => none
    | some s3 =>
      let w2 := s3.takeWhile isWs
      let s4 := s3.dropWhile isWs
      match expectLit ['='] s4 with
      | none => none
      | some s5 =>
        let w3 := s5.takeWhile isWs
        let s6 := s5.dropWhile isWs
        let q1 := takeQuote s6
        let s7 := dropQuote s6
        let w4 := s7.takeWhile isWs
        let s8 := s7.dropWhile isWs
        match expectLit litSrc s8 with
        | none => none
        | some s9 =>
          let ds := s9.takeWhile isDigitCh
          let s10 := s9.dropWhile isDigitCh
          if ds.isEmpty then none else
          let w5 := s10.takeWhile isWs
          let s11 := s10.dropWhile isWs
          let q2 := takeQuote s11
          let s12 := dropQuote s11
          let w6 := s12.takeWhile isWs
          let s13 := s12.dropWhile isWs
          match expectLit litClose s13 with
          | none => none
          | some rem =>
            some (litCite ++ w1 ++ litSource ++ w2 ++ '=' :: w3 ++ q1 ++ w4 ++
                    litSrc ++ ds ++ w5 ++ q2 ++ w6 ++ litClose,
                  String.mk (litSrc ++ ds), rem)

/-- A source record: the fields of the dictionaries stored under
`state["sources"]` that `tag_replacer` reads (`title`, `domain`, `url`). -/
structure SourceInfo where
  title : Option String
  domain : Option String
  url : Option String
deriving Repr, DecidableEq

/-- Python truthiness of the record dictionary: `{}` is falsy. -/
def SourceInfo.isEmptyDict (i : SourceInfo) : Bool :=
  i.title.isNone && i.domain.isNone && i.url.isNone

/-- The warning text logged for an unresolvable tag
(`f"Invalid citation tag found and removed: ..."` with `match.group(0)`). -/
def invalidTagWarning (whole : List Char) : String :=
  "Invalid citation tag found and removed: " ++ String.mk whole

/-- Display-text choice of `tag_replacer`:
`source_info.get("title", source_info.get("domain", short_id))`. -/
def displayOf (info : SourceInfo) (shortId : String) : String :=
  info.title.getD (info.domain.getD shortId)

/-- `tag_replacer` from `citation_replacement.py`: given the whole matched
text and the captured short id, produce the replacement characters and the
warnings logged; a record that is present and truthy but has no `url` key
makes the Python code raise `KeyError` (modelled as `Except.error`). -/
def tagReplacer (sources : List (String × SourceInfo)) (whole : List Char)
    (shortId : String) : Except String (List Char × List String) :=
  match sources.lookup shortId with
  | none => .ok ([], [invalidTagWarning whole])
  | some info =>
    if info.isEmptyDict then .ok ([], [invalidTagWarning whole])
    else
      let displayText := displayOf info shortId
      match info.url with
      | none => .error "KeyError: 'url'"
      | some url =>
        .ok ((" [" ++ displayText ++ "](" ++ url ++ ")").data, [])

/-- `re.sub` of the cite pattern with `tag_replacer`, as a left-to-right
scanner.  Structural recursion on a fuel argument; `subCite` below always
supplies sufficient fuel (a match consumes at least one character). -/
def subCiteF (sources : List (String × SourceInfo)) :
    Nat → List Char → Except String (List Char × List String)
  | _, [] => .ok ([], [])
  | 0, _ :: _ => .error "fuel"
  | fuel + 1, c :: rest =>
    match matchCiteAt (c :: rest) with
    | some (whole, shortId, rem) =>
      match tagReplacer sources whole shortId with
      | .error e => .error e
      | .ok (repl, warns) =>
        match subCiteF sources fuel rem with
        | .error e => .error e
        | .ok (out, warns') => .ok (repl ++ out, warns ++ warns')
    | none =>
      match subCiteF sources fuel rest with
      | .error e => .error e
      | .ok (out, warns') => .ok (c :: out, warns')

/-- First substitution pass of `citation_replacement_callback`. -/
def subCite (sources : List (String × SourceInfo)) (s : List Char) :
    Except String (List Char × List String) :=
  subCiteF sources s.length s

/-- Lookahead for the second regex `\s+([.,;:])`: after skipping whitespace,
is the next character one of `[.,;:]`? -/
def followedByPunct : List Char → Bool
  | [] => false
  | c :: rest => if isPunctCh c then true else if isWs c then followedByPunct rest else false

/-- Second pass `re.sub(r"\s+([.,;:])", r"\1", ...)`: every whitespace
character that is followed (through further whitespace) by one of `[.,;:]`
is removed; everything else is kept. -/
def collapseWsPunct : List Char → List Char
  | [] => []
  | c :: rest =>
    if isWs c && followedByPunct rest then collapseWsPunct rest
    else c :: collapseWsPunct rest

/-- The callback-context state: the keys `citation_replacement_callback`
touches, plus an explicit bag of all other state keys. -/
structure AgentState where
  final_cited_report : Option String
  sources : Option (List (String × SourceInfo))
  final_report_with_citations : Option String
  otherKeys : List (String × String)
deriving Repr, DecidableEq

/-- The result of the callback: the updated state, the text of the single
`Part` of the returned `Content`, and the warnings logged. -/
structure CallbackOutput where
  newState : AgentState
  contentText : String
  warnings : List String
deriving Repr, DecidableEq

/-- `citation_replacement_callback` from `app/callbacks/citation_replacement.py`. -/
def citation_replacement_callback (st : AgentState) : Except String CallbackOutput :=
  let final_report := st.final_cited_report.getD ""
  let sources := st.sources.getD []
  match subCite sources final_report.data with
  | .error e => .error e
  | .ok (out, warns) =>
    let processed := collapseWsPunct out
    let txt := String.mk processed
    .ok ⟨{ st with final_report_with_citations := some txt }, txt, warns⟩

/-! ### Basic lemmas about the splitting primitives -/

/-- The canonical decomposition of a string matched by the cite pattern.
`w1..w6` are the whitespace runs, `q1`/`q2` the optional quotes, `ds` the
digit run of the captured id.  The constraints `q1 = [] → w4 = []` and
`q2 = [] → w6 = []` record that two adjacent whitespace runs merge when no
quote separates them, which is what the greedy matcher produces. -/
def CiteShape (whole : List Char) (shortId : String) : Prop :=
  ∃ w1 w2 w3 q1 w4 ds w5 q2 w6 : List Char,
    whole = litCite ++ w1 ++ litSource ++ w2 ++ '=' :: w3 ++ q1 ++ w4 ++
      litSrc ++ ds ++ w5 ++ q2 ++ w6 ++ litClose ∧
    shortId = String.mk (litSrc ++ ds) ∧
    w1 ≠ [] ∧ w1.all isWs = true ∧ w2.all isWs = true ∧ w3.all isWs = true ∧
    w4.all isWs = true ∧ w5.all isWs = true ∧ w6.all isWs = true ∧
    ds ≠ [] ∧ ds.all isDigitCh = true ∧
    (q1 = [] ∨ ∃ q, isQuoteCh q = true ∧ q1 = [q]) ∧
    (q2 = [] ∨ ∃ q, isQuoteCh q = true ∧ q2 = [q]) ∧
    (q1 = [] → w4 = []) ∧ (q2 = [] → w6 = [])

/-- No suffix of `s` begins with a match of the cite pattern: the formal
meaning of "the text contains no `<cite .../>` tag". -/
def noTag : List Char → Bool
  | [] => true
  | c :: rest => (matchCiteAt (c :: rest)).isNone && noTag rest

/-- A tag with this id is replaced without warning or exception: the record
is present, truthy, and carries a `url`. -/
def okRecord (sources : List (String × SourceInfo)) (shortId : String) : Bool :=
  match sources.lookup shortId with
  | none => false
  | some info => !info.isEmptyDict && info.url.isSome

/-- Every cite tag the scanner finds resolves via `okRecord`
(same fuel discipline as `subCiteF`). -/
def resolvableF (sources : List (String × SourceInfo)) : Nat → List Char → Bool
  | _, [] => true
  | 0, _ :: _ => false
  | fuel + 1, c :: rest =>
    match matchCiteAt (c :: rest) with
    | some (_, shortId, rem) => okRecord sources shortId && resolvableF sources fuel rem
    | none => resolvableF sources fuel rest

def allResolvable (sources : List (String × SourceInfo)) (s : List Char) : Bool :=
  resolvableF sources s.length s

/-- The string contains no `<` character (so it cannot start a cite tag). -/
def cleanStr (s : String) : Bool := s.data.all fun c => c != '<'

def cleanOptStr : Option String → Bool
  | none => true
  | some s => cleanStr s

def cleanInfo (info : SourceInfo) : Bool :=
  cleanOptStr info.title && cleanOptStr info.domain && cleanOptStr info.url

def cleanSources (sources : List (String × SourceInfo)) : Bool :=
  sources.all fun p => cleanInfo p.2

/-- The declarative agent-composition tree formed by the ADK
`SequentialAgent` / `LoopAgent` / `LlmAgent` declarations. -/
inductive AgentTree where
  | basic (name : String)
  | loop (name : String) (maxIterations : Nat) (sub : List AgentTree)
  | seq (name : String) (sub : List AgentTree)

/-- `ResearchConfiguration` from `app/config.py` (defaults as in the source). -/
structure ResearchConfiguration where
  critic_model : String := "gemini-2.5-pro"
  worker_model : String := "gemini-2.5-flash"
  max_search_iterations : Nat := 5
deriving Repr, DecidableEq

/-- `config = ResearchConfiguration()` from `app/config.py`. -/
def config : ResearchConfiguration := {}

/-- `section_planner` from `app/subagents/section_planner/agent.py`
(an LlmAgent leaf; instruction text is irrelevant to the claims). -/
def section_planner : AgentTree := .basic "section_planner"

/-- `section_researcher` from `app/subagents/section_researcher/agent.py`. -/
def section_researcher : AgentTree := .basic "section_researcher"

/-- Modelled from the spec: the research evaluator agent.  Its module
(`app/subagents/research_evaluator`) is not in the repository snapshot; only
`research_pipeline/agent.py` imports it, so it is embedded as a leaf. -/
def research_evaluator : AgentTree := .basic "research_evaluator"

/-- Modelled from the spec: the escalation checker collaborator
(`EscalationChecker(name="escalation_checker")` from `app/shared/utilities`,
not in the snapshot) that can end the refinement loop early. -/
def escalation_checker : AgentTree := .basic "escalation_checker"

/-- Modelled from the spec: the enhanced search executor agent
(`app/subagents/enhanced_search_executor`, not in the snapshot). -/
def enhanced_search_executor : AgentTree := .basic "enhanced_search_executor"

/-- Modelled from the spec: the report composer agent
(`app/subagents/report_composer`, not in the snapshot). -/
def report_composer : AgentTree := .basic "report_composer"

/-- `research_pipeline` from `app/subagents/research_pipeline/agent.py`:
`SequentialAgent` over planner, researcher, a `LoopAgent` with
`max_iterations=config.max_search_iterations`, and the composer. -/
def research_pipeline : AgentTree :=
  .seq "research_pipeline"
    [section_planner,
     section_researcher,
     .loop "iterative_refinement_loop" config.max_search_iterations
       [research_evaluator,
        escalation_checker,
        enhanced_search_executor],
     report_composer]

/-- A JSON value, with just enough structure for the deployment metadata. -/
inductive JsonVal where
  | str (s : String)
  | bool (b : Bool)
  | obj (fields : List (String × JsonVal))

/-- The runtime inputs of the metadata block of `deploy_agent_engine_app`
(`app/agent_engine_app.py`): the deployed agent resource name, the
timestamp, and the deployment configuration fields. -/
structure DeploymentInputs where
  resource_name : String
  timestamp : String
  agent_name : String
  project : String
  location : String
  memory_generation_interval : String

/-- `agent_engine_id = remote_agent.resource_name.split("/")[-1]`. -/
def agentEngineIdOf (resource_name : String) : String :=
  ((resource_name.splitOn "/").getLast?).getD ""

/-- The `metadata` dictionary literal written to
`logs/deployment_metadata.json` by `deploy_agent_engine_app`
(`app/agent_engine_app.py`, step 9), keys in insertion order. -/
def deployment_metadata (d : DeploymentInputs) : List (String × JsonVal) :=
  let agent_engine_id := agentEngineIdOf d.resource_name
  [("remote_agent_engine_id", .str d.resource_name),
   ("agent_engine_id", .str agent_engine_id),
   ("deployment_timestamp", .str d.timestamp),
   ("agent_name", .str d.agent_name),
   ("project", .str d.project),
   ("location", .str d.location),
   ("memory_configuration", .obj
      [("enabled", .bool true),
       ("service", .str "VertexAiMemoryBankService"),
       ("generation_interval", .str d.memory_generation_interval),
       ("agent_has_memory_tool", .bool true),
       ("automatic_generation", .bool true)]),
   ("session_service", .obj
      [("type", .str "VertexAiSessionService"),
       ("persistent", .bool true),
       ("configuration", .obj
          [("project", .str d.project),
           ("location", .str d.location),
           ("agent_engine_id", .str agent_engine_id)])])]

theorem expectLit_eq : ∀ {lit s r : List Char}, expectLit lit s = some r → s = lit ++ r := by
  intro lit
  induction lit with
  | nil => intro s r h; simpa [expectLit] using h
  | cons l lit ih =>
    intro s r h
    cases s with
    | nil => simp [expectLit] at h
    | cons c s =>
      simp only [expectLit] at h
      by_cases hc : c = l
      · subst hc
        simp only [if_pos rfl] at h
        simpa using ih h
      · simp [hc] at h

theorem expectLit_append : ∀ (lit t : List Char), expectLit lit (lit ++ t) = some t := by
  intro lit
  induction lit with
  | nil => intro t; simp [expectLit]
  | cons l lit ih => intro t; simp [expectLit, ih]

theorem all_takeWhile (p : Char → Bool) : ∀ l : List Char, (l.takeWhile p).all p = true := by
  intro l
  induction l with
  | nil => simp [List.takeWhile]
  | cons c rest ih =>
    by_cases hc : p c
    · simp [List.takeWhile, hc, ih]
    · simp [List.takeWhile, hc]

theorem dropWhile_head_false (p : Char → Bool) :
    ∀ {l : List Char} {c t}, l.dropWhile p = c :: t → p c = false := by
  intro l
  induction l with
  | nil => intro c t h; simp [List.dropWhile] at h
  | cons x rest ih =>
    intro c t h
    by_cases hx : p x
    · rw [List.dropWhile_cons_of_pos hx] at h
      exact ih h
    · rw [List.dropWhile_cons_of_neg hx] at h
      cases h
      simpa using hx

theorem takeWhile_append_of_all {p : Char → Bool} :
    ∀ {a : List Char} {c b}, a.all p = true → p c = false →
      (a ++ c :: b).takeWhile p = a := by
  intro a
  induction a with
  | nil => intro c b _ hc; simp [List.takeWhile, hc]
  | cons x a ih =>
    intro c b ha hc
    simp only [List.all_cons, Bool.and_eq_true] at ha
    simp [List.takeWhile, ha.1, ih ha.2 hc]

theorem dropWhile_append_of_all {p : Char → Bool} :
    ∀ {a : List Char} {c b}, a.all p = true → p c = false →
      (a ++ c :: b).dropWhile p = c :: b := by
  intro a
  induction a with
  | nil => intro c b _ hc; simp [List.dropWhile, hc]
  | cons x a ih =>
    intro c b ha hc
    simp only [List.all_cons, Bool.and_eq_true] at ha
    simp [List.dropWhile, ha.1, ih ha.2 hc]

theorem takeQuote_append_dropQuote : ∀ s : List Char, takeQuote s ++ dropQuote s = s := by
  intro s
  cases s with
  | nil => rfl
  | cons c rest =>
    by_cases hc : isQuoteCh c
    · simp [takeQuote, dropQuote, hc]
    · simp [takeQuote, dropQuote, hc]

theorem takeQuote_eq_nil_or_single (s : List Char) :
    takeQuote s = [] ∨ ∃ q, isQuoteCh q = true ∧ takeQuote s = [q] := by
  cases s with
  | nil => exact Or.inl rfl
  | cons c rest =>
    by_cases hc : isQuoteCh c
    · exact Or.inr ⟨c, hc, by simp [takeQuote, hc]⟩
    · exact Or.inl (by simp [takeQuote, hc])

theorem dropQuote_of_nonquote {c : Char} {t : List Char} (hc : isQuoteCh c = false) :
    dropQuote (c :: t) = c :: t := by
  simp [dropQuote, hc]

theorem dropQuote_of_quote {c : Char} {t : List Char} (hc : isQuoteCh c = true) :
    dropQuote (c :: t) = t := by
  simp [dropQuote, hc]

theorem takeQuote_of_nonquote {c : Char} {t : List Char} (hc : isQuoteCh c = false) :
    takeQuote (c :: t) = [] := by
  simp [takeQuote, hc]

theorem takeQuote_of_quote {c : Char} {t : List Char} (hc : isQuoteCh c = true) :
    takeQuote (c :: t) = [c] := by
  simp [takeQuote, hc]

theorem takeWhile_dropWhile_nil (p : Char → Bool) (l : List Char) :
    (l.dropWhile p).takeWhile p = [] := by
  cases hd : l.dropWhile p with
  | nil => rfl
  | cons c t =>
    have := dropWhile_head_false p hd
    simp [List.takeWhile, this]

theorem ws_not_digit {c : Char} (h : isWs c = true) : isDigitCh c = false := by
  simp only [isWs, Bool.or_eq_true, decide_eq_true_eq] at h
  rcases h with ((((h | h) | h) | h) | h) | h <;> subst h <;> decide

theorem quote_not_ws {c : Char} (h : isQuoteCh c = true) : isWs c = false := by
  simp only [isQuoteCh, Bool.or_eq_true, decide_eq_true_eq] at h
  rcases h with h | h <;> subst h <;> decide

theorem quote_not_digit {c : Char} (h : isQuoteCh c = true) : isDigitCh c = false := by
  simp only [isQuoteCh, Bool.or_eq_true, decide_eq_true_eq] at h
  rcases h with h | h <;> subst h <;> decide

/-! ### Canonical decomposition of a successful match -/

theorem matchCiteAt_shape {s whole : List Char} {shortId : String} {rem : List Char}
    (h : matchCiteAt s = some (whole, shortId, rem)) :
    CiteShape whole shortId ∧ s = whole ++ rem := by
  unfold matchCiteAt at h
  cases hA : expectLit litCite s with
  | none => rw [hA] at h; exact absurd h (by simp)
  | some s1 =>
  rw [hA] at h
  simp only at h
  by_cases hw1 : (s1.takeWhile isWs).isEmpty
  · rw [if_pos hw1] at h; exact absurd h (by simp)
  rw [if_neg hw1] at h
  cases hB : expectLit litSource (s1.dropWhile isWs) with
  | none => rw [hB] at h; exact absurd h (by simp)
  | some s3 =>
  rw [hB] at h
  simp only at h
  cases hC : expectLit ['='] (s3.dropWhile isWs) with
  | none => rw [hC] at h; exact absurd h (by simp)
  | some s5 =>
  rw [hC] at h
  simp only at h
  cases hD : expectLit litSrc ((dropQuote (s5.dropWhile isWs)).dropWhile isWs) with
  | none => rw [hD] at h; exact absurd h (by simp)
  | some s9 =>
  rw [hD] at h
  simp only at h
  by_cases hds : (s9.takeWhile isDigitCh).isEmpty
  · rw [if_pos hds] at h; exact absurd h (by simp)
  rw [if_neg hds] at h
  cases hE : expectLit litClose
      ((dropQuote ((s9.dropWhile isDigitCh).dropWhile isWs)).dropWhile isWs) with
  | none => rw [hE] at h; exact absurd h (by simp)
  | some rem' =>
  rw [hE] at h
  simp only at h
  simp only [Option.some.injEq, Prod.mk.injEq] at h
  obtain ⟨hwhole, hid, hrem⟩ := h
  -- name the segments
  set w1 := s1.takeWhile isWs with hw1def
  set w2 := s3.takeWhile isWs with hw2def
  set w3 := s5.takeWhile isWs with hw3def
  set q1 := takeQuote (s5.dropWhile isWs) with hq1def
  set w4 := (dropQuote (s5.dropWhile isWs)).takeWhile isWs with hw4def
  set ds := s9.takeWhile isDigitCh with hdsdef
  set w5 := (s9.dropWhile isDigitCh).takeWhile isWs with hw5def
  set q2 := takeQuote ((s9.dropWhile isDigitCh).dropWhile isWs) with hq2def
  set w6 := (dropQuote ((s9.dropWhile isDigitCh).dropWhile isWs)).takeWhile isWs with hw6def
  have hs  : s = litCite ++ s1 := expectLit_eq hA
  have hs1 : s1 = w1 ++ s1.dropWhile isWs := by
    rw [hw1def]; exact (List.takeWhile_append_dropWhile _ _).symm
  have hs2 : s1.dropWhile isWs = litSource ++ s3 := expectLit_eq hB
  have hs3 : s3 = w2 ++ s3.dropWhile isWs := by
    rw [hw2def]; exact (List.takeWhile_append_dropWhile _ _).symm
  have hs4 : s3.dropWhile isWs = '=' :: s5 := by
    have := expectLit_eq hC; simpa using this
  have hs5 : s5 = w3 ++ s5.dropWhile isWs := by
    rw [hw3def]; exact (List.takeWhile_append_dropWhile _ _).symm
  have hs6 : s5.dropWhile isWs = q1 ++ dropQuote (s5.dropWhile isWs) := by
    rw [hq1def]; exact (takeQuote_append_dropQuote _).symm
  have hs7 : dropQuote (s5.dropWhile isWs) =
      w4 ++ (dropQuote (s5.dropWhile isWs)).dropWhile isWs := by
    rw [hw4def]; exact (List.takeWhile_append_dropWhile _ _).symm
  have hs8 : (dropQuote (s5.dropWhile isWs)).dropWhile isWs = litSrc ++ s9 :=
    expectLit_eq hD
  have hs9 : s9 = ds ++ s9.dropWhile isDigitCh := by
    rw [hdsdef]; exact (List.takeWhile_append_dropWhile _ _).symm
  have hs10 : s9.dropWhile isDigitCh = w5 ++ (s9.dropWhile isDigitCh).dropWhile isWs := by
    rw [hw5def]; exact (List.takeWhile_append_dropWhile _ _).symm
  have hs11 : (s9.dropWhile isDigitCh).dropWhile isWs =
      q2 ++ dropQuote ((s9.dropWhile isDigitCh).dropWhile isWs) := by
    rw [hq2def]; exact (takeQuote_append_dropQuote _).symm
  have hs12 : dropQuote ((s9.dropWhile isDigitCh).dropWhile isWs) =
      w6 ++ (dropQuote ((s9.dropWhile isDigitCh).dropWhile isWs)).dropWhile isWs := by
    rw [hw6def]; exact (List.takeWhile_append_dropWhile _ _).symm
  have hs13 : (dropQuote ((s9.dropWhile isDigitCh).dropWhile isWs)).dropWhile isWs =
      litClose ++ rem' := expectLit_eq hE
  constructor
  · refine ⟨w1, w2, w3, q1, w4, ds, w5, q2, w6, hwhole.symm, hid.symm, ?_, ?_, ?_, ?_,
      ?_, ?_, ?_, ?_, ?_, ?_, ?_, ?_, ?_⟩
    · intro hnil; rw [hnil] at hw1; exact hw1 rfl
    · exact all_takeWhile _ _
    · exact all_takeWhile _ _
    · exact all_takeWhile _ _
    · exact all_takeWhile _ _
    · exact all_takeWhile _ _
    · exact all_takeWhile _ _
    · intro hnil; rw [hnil] at hds; exact hds rfl
    · exact all_takeWhile _ _
    · exact takeQuote_eq_nil_or_single _
    · exact takeQuote_eq_nil_or_single _
    · intro hq1nil
      have : dropQuote (s5.dropWhile isWs) = s5.dropWhile isWs := by
        cases hcase : s5.dropWhile isWs with
        | nil => simp [dropQuote]
        | cons c t =>
          rw [hq1def, hcase] at hq1nil
          by_cases hc : isQuoteCh c
          · rw [takeQuote_of_quote hc] at hq1nil; exact absurd hq1nil (by simp)
          · exact dropQuote_of_nonquote (by simpa using hc)
      rw [hw4def, this]
      exact takeWhile_dropWhile_nil _ _
    · intro hq2nil
      have : dropQuote ((s9.dropWhile isDigitCh).dropWhile isWs) =
          (s9.dropWhile isDigitCh).dropWhile isWs := by
        cases hcase : (s9.dropWhile isDigitCh).dropWhile isWs with
        | nil => simp [dropQuote]
        | cons c t =>
          rw [hq2def, hcase] at hq2nil
          by_cases hc : isQuoteCh c
          · rw [takeQuote_of_quote hc] at hq2nil; exact absurd hq2nil (by simp)
          · exact dropQuote_of_nonquote (by simpa using hc)
      rw [hw6def, this]
      exact takeWhile_dropWhile_nil _ _
  · rw [← hwhole, hrem.symm, hs, hs1, hs2, hs3, hs4, hs5, hs6, hs7, hs8, hs9, hs10,
      hs11, hs12, hs13]
    simp [List.append_assoc]

theorem isEmpty_false_of_ne_nil {l : List Char} (h : l ≠ []) : l.isEmpty = false := by
  cases l with
  | nil => exact absurd rfl h
  | cons c t => rfl

/-- Consuming a `\s* quote? \s*` segment followed by a non-space non-quote
character stops exactly at the segment boundaries. -/
theorem quoteSeg_consume (wA qA wB R : List Char) (c : Char)
    (hwA : wA.all isWs = true) (hwB : wB.all isWs = true)
    (hqA : qA = [] ∨ ∃ q, isQuoteCh q = true ∧ qA = [q])
    (hmerge : qA = [] → wB = [])
    (hc1 : isWs c = false) (hc2 : isQuoteCh c = false) :
    (wA ++ (qA ++ (wB ++ c :: R))).takeWhile isWs = wA ∧
    (wA ++ (qA ++ (wB ++ c :: R))).dropWhile isWs = qA ++ (wB ++ c :: R) ∧
    takeQuote (qA ++ (wB ++ c :: R)) = qA ∧
    dropQuote (qA ++ (wB ++ c :: R)) = wB ++ c :: R ∧
    (wB ++ c :: R).takeWhile isWs = wB ∧
    (wB ++ c :: R).dropWhile isWs = c :: R := by
  rcases hqA with hnil | ⟨q, hq, hqA⟩
  · subst hnil
    have hwBnil := hmerge rfl
    subst hwBnil
    simp only [List.nil_append]
    refine ⟨takeWhile_append_of_all hwA hc1, dropWhile_append_of_all hwA hc1,
      takeQuote_of_nonquote hc2, dropQuote_of_nonquote hc2, ?_, ?_⟩
    · simp [List.takeWhile, hc1]
    · simp [List.dropWhile, hc1]
  · subst hqA
    simp only [List.singleton_append]
    have hqws : isWs q = false := quote_not_ws hq
    exact ⟨takeWhile_append_of_all hwA hqws, dropWhile_append_of_all hwA hqws,
      takeQuote_of_quote hq, dropQuote_of_quote hq,
      takeWhile_append_of_all hwB hc1, dropWhile_append_of_all hwB hc1⟩

/-- The head of a `\s* quote? \s*` segment followed by `c` is never a digit. -/
theorem quoteSeg_head_not_digit (wA qA wB R : List Char) (c : Char)
    (hwA : wA.all isWs = true)
    (hqA : qA = [] ∨ ∃ q, isQuoteCh q = true ∧ qA = [q])
    (hmerge : qA = [] → wB = [])
    (hcd : isDigitCh c = false) :
    ∃ d R2, wA ++ (qA ++ (wB ++ c :: R)) = d :: R2 ∧ isDigitCh d = false := by
  cases wA with
  | cons x w2 =>
    simp only [List.all_cons, Bool.and_eq_true] at hwA
    exact ⟨x, w2 ++ (qA ++ (wB ++ c :: R)), by simp, ws_not_digit hwA.1⟩
  | nil =>
    rcases hqA with hnil | ⟨q, hq, hqA⟩
    · have hwBnil := hmerge hnil
      subst hnil; subst hwBnil
      exact ⟨c, R, by simp, hcd⟩
    · subst hqA
      exact ⟨q, wB ++ c :: R, by simp, quote_not_digit hq⟩

/-- Replaying the matcher on a canonical decomposition with any tail
succeeds and consumes exactly the decomposition. -/
theorem citeShape_replay {whole : List Char} {shortId : String}
    (h : CiteShape whole shortId) :
    ∀ t, matchCiteAt (whole ++ t) = some (whole, shortId, t) := by
  intro t
  obtain ⟨w1, w2, w3, q1, w4, ds, w5, q2, w6, hwhole, hid, hw1ne, hw1, hw2, hw3,
    hw4, hw5, hw6, hdsne, hds, hq1, hq2, hm1, hm2⟩ := h
  subst hwhole
  subst hid
  have hsrc : isWs 's' = false := by decide
  have heqc : isWs '=' = false := by decide
  have hsq : isQuoteCh 's' = false := by decide
  have hslash1 : isWs '/' = false := by decide
  have hslash2 : isQuoteCh '/' = false := by decide
  have hslash3 : isDigitCh '/' = false := by decide
  have harg : (litCite ++ w1 ++ litSource ++ w2 ++ '=' :: w3 ++ q1 ++ w4 ++
      litSrc ++ ds ++ w5 ++ q2 ++ w6 ++ litClose) ++ t
      = litCite ++ (w1 ++ (litSource ++ (w2 ++ ('=' :: (w3 ++ (q1 ++ (w4 ++
        (litSrc ++ (ds ++ (w5 ++ (q2 ++ (w6 ++ (litClose ++ t))))))))))))) := by
    simp [List.append_assoc]
  rw [harg]
  set T := litClose ++ t with hT
  set X5 := w5 ++ (q2 ++ (w6 ++ T)) with h5
  set X4 := ds ++ X5 with h4
  set X3 := litSrc ++ X4 with h3
  set X2 := w4 ++ X3 with h2
  set X1 := w3 ++ (q1 ++ X2) with h1
  set X0 := w2 ++ '=' :: X1 with h0
  set Y1 := litSource ++ X0 with hy1
  set Y0 := w1 ++ Y1 with hy0
  have hseg1 := quoteSeg_consume w3 q1 w4 ('r' :: 'c' :: '-' :: X4) 's'
    hw3 hw4 hq1 hm1 hsrc hsq
  have hseg2 := quoteSeg_consume w5 q2 w6 ('>' :: t) '/'
    hw5 hw6 hq2 hm2 hslash1 hslash2
  obtain ⟨d, R2, hX5head, hd⟩ := quoteSeg_head_not_digit w5 q2 w6 ('>' :: t) '/'
    hw5 hq2 hm2 hslash3
  have g1 : expectLit litCite (litCite ++ Y0) = some Y0 := expectLit_append _ _
  have g2 : Y0.takeWhile isWs = w1 := by
    rw [hy0, hy1]; exact takeWhile_append_of_all hw1 hsrc
  have g3 : Y0.dropWhile isWs = Y1 := by
    rw [hy0, hy1]; exact dropWhile_append_of_all hw1 hsrc
  have e1 : w1.isEmpty = false := isEmpty_false_of_ne_nil hw1ne
  have g4 : expectLit litSource Y1 = some X0 := by
    rw [hy1]; exact expectLit_append _ _
  have g5 : X0.takeWhile isWs = w2 := by
    rw [h0]; exact takeWhile_append_of_all hw2 heqc
  have g6 : X0.dropWhile isWs = '=' :: X1 := by
    rw [h0]; exact dropWhile_append_of_all hw2 heqc
  have g7 : expectLit ['='] ('=' :: X1) = some X1 := expectLit_append ['='] X1
  have g8 : X1.takeWhile isWs = w3 := by
    rw [h1, h2, h3]; exact hseg1.1
  have g9 : X1.dropWhile isWs = q1 ++ X2 := by
    rw [h1, h2, h3]; exact hseg1.2.1
  have g10 : takeQuote (q1 ++ X2) = q1 := by
    rw [h2, h3]; exact hseg1.2.2.1
  have g11 : dropQuote (q1 ++ X2) = X2 := by
    rw [h2, h3]; exact hseg1.2.2.2.1
  have g12 : X2.takeWhile isWs = w4 := by
    rw [h2, h3]; exact hseg1.2.2.2.2.1
  have g13 : X2.dropWhile isWs = X3 := by
    rw [h2, h3]; exact hseg1.2.2.2.2.2
  have g14 : expectLit litSrc X3 = some X4 := by
    rw [h3]; exact expectLit_append _ _
  have hX5head2 : X5 = d :: R2 := by
    rw [h5, hT]; exact hX5head
  have g15 : X4.takeWhile isDigitCh = ds := by
    rw [h4, hX5head2]; exact takeWhile_append_of_all hds hd
  have g16 : X4.dropWhile isDigitCh = X5 := by
    rw [h4, hX5head2]; exact dropWhile_append_of_all hds hd
  have e2 : ds.isEmpty = false := isEmpty_false_of_ne_nil hdsne
  have g17 : X5.takeWhile isWs = w5 := by
    rw [h5, hT]; exact hseg2.1
  have g18 : X5.dropWhile isWs = q2 ++ (w6 ++ T) := by
    rw [h5, hT]; exact hseg2.2.1
  have g19 : takeQuote (q2 ++ (w6 ++ T)) = q2 := by
    rw [hT]; exact hseg2.2.2.1
  have g20 : dropQuote (q2 ++ (w6 ++ T)) = w6 ++ T := by
    rw [hT]; exact hseg2.2.2.2.1
  have g21 : (w6 ++ T).takeWhile isWs = w6 := by
    rw [hT]; exact hseg2.2.2.2.2.1
  have g22 : (w6 ++ T).dropWhile isWs = T := by
    rw [hT]; exact hseg2.2.2.2.2.2
  have g23 : expectLit litClose T = some t := by
    rw [hT]; exact expectLit_append _ _
  simp only [matchCiteAt, g1, g2, g3, e1, g4, g5, g6, g7, g8, g9, g10, g11, g12,
    g13, g14, g15, g16, e2, g17, g18, g19, g20, g21, g22, g23, Bool.false_eq_true,
    if_false]

theorem all_weaken {p q : Char → Bool} (h : ∀ c, p c = true → q c = true) :
    ∀ {l : List Char}, l.all p = true → l.all q = true := by
  intro l
  induction l with
  | nil => intro; rfl
  | cons x xs ih =>
    intro hl
    simp only [List.all_cons, Bool.and_eq_true] at hl ⊢
    exact ⟨h x hl.1, ih hl.2⟩

theorem ws_tagChar {c : Char} (h : isWs c = true) : tagChar c = true := by
  simp [tagChar, h]

theorem digit_tagChar {c : Char} (h : isDigitCh c = true) : tagChar c = true := by
  simp [tagChar, h]

theorem quote_tagChar {c : Char} (h : isQuoteCh c = true) : tagChar c = true := by
  simp [tagChar, h]

theorem citeShape_alpha {whole : List Char} {shortId : String}
    (h : CiteShape whole shortId) : whole.all tagChar = true := by
  obtain ⟨w1, w2, w3, q1, w4, ds, w5, q2, w6, hwhole, _, _, hw1, hw2, hw3,
    hw4, hw5, hw6, _, hds, hq1, hq2, _, _⟩ := h
  subst hwhole
  have hq1a : q1.all tagChar = true := by
    rcases hq1 with rfl | ⟨q, hq, rfl⟩
    · rfl
    · simp [quote_tagChar hq]
  have hq2a : q2.all tagChar = true := by
    rcases hq2 with rfl | ⟨q, hq, rfl⟩
    · rfl
    · simp [quote_tagChar hq]
  have h1 : w1.all tagChar = true := all_weaken (fun c => ws_tagChar) hw1
  have h2 : w2.all tagChar = true := all_weaken (fun c => ws_tagChar) hw2
  have h3 : w3.all tagChar = true := all_weaken (fun c => ws_tagChar) hw3
  have h4 : w4.all tagChar = true := all_weaken (fun c => ws_tagChar) hw4
  have h5 : w5.all tagChar = true := all_weaken (fun c => ws_tagChar) hw5
  have h6 : w6.all tagChar = true := all_weaken (fun c => ws_tagChar) hw6
  have hd : ds.all tagChar = true := all_weaken (fun c => digit_tagChar) hds
  have hc1 : litCite.all tagChar = true := by decide
  have hc2 : litSource.all tagChar = true := by decide
  have hc3 : litSrc.all tagChar = true := by decide
  have hc4 : litClose.all tagChar = true := by decide
  have hc5 : tagChar '=' = true := by decide
  simp [List.all_append, List.all_cons, h1, h2, h3, h4, h5, h6, hd, hq1a, hq2a,
    hc1, hc2, hc3, hc4, hc5]

theorem citeShape_head {whole : List Char} {shortId : String}
    (h : CiteShape whole shortId) : ∃ u, whole = '<' :: u := by
  obtain ⟨w1, w2, w3, q1, w4, ds, w5, q2, w6, hwhole, _⟩ := h
  exact ⟨_, by rw [hwhole]; rfl⟩

theorem citeShape_last {whole : List Char} {shortId : String}
    (h : CiteShape whole shortId) : ∃ X, whole = X ++ litClose := by
  obtain ⟨w1, w2, w3, q1, w4, ds, w5, q2, w6, hwhole, _⟩ := h
  exact ⟨_, by rw [hwhole]⟩

theorem digit_ne_lt {c : Char} (h : isDigitCh c = true) : (c != '<') = true := by
  by_cases hc : c = '<'
  · subst hc; exact absurd h (by decide)
  · simp [hc]

theorem citeShape_id_clean {whole : List Char} {shortId : String}
    (h : CiteShape whole shortId) : shortId.data.all (fun c => c != '<') = true := by
  obtain ⟨w1, w2, w3, q1, w4, ds, w5, q2, w6, _, hid, _, _, _, _, _, _, _, _,
    hds, _⟩ := h
  subst hid
  show (litSrc ++ ds).all (fun c => c != '<') = true
  simp only [List.all_append, Bool.and_eq_true]
  exact ⟨by decide, all_weaken (fun c => digit_ne_lt) hds⟩

theorem getLast?_concat (b : Char) : ∀ X : List Char, (X ++ [b]).getLast? = some b := by
  intro X
  induction X with
  | nil => rfl
  | cons x xs ih =>
    cases hxs : xs ++ [b] with
    | nil => exact absurd hxs (by simp)
    | cons y ys =>
      simp only [List.cons_append]
      rw [hxs, List.getLast?_cons_cons, ← hxs, ih]

theorem citeShape_getLast {whole : List Char} {shortId : String}
    (h : CiteShape whole shortId) : whole.getLast? = some '>' := by
  obtain ⟨X, hX⟩ := citeShape_last h
  rw [hX, litClose, show X ++ ['/', '>'] = (X ++ ['/']) ++ ['>'] by simp,
    getLast?_concat]

theorem matchCiteAt_head {s whole : List Char} {shortId : String} {rem : List Char}
    (h : matchCiteAt s = some (whole, shortId, rem)) : ∃ u, s = '<' :: u := by
  obtain ⟨hshape, hs⟩ := matchCiteAt_shape h
  obtain ⟨u, hu⟩ := citeShape_head hshape
  exact ⟨u ++ rem, by rw [hs, hu]; rfl⟩

theorem matchCiteAt_lt {s whole : List Char} {shortId : String} {rem : List Char}
    (h : matchCiteAt s = some (whole, shortId, rem)) : rem.length < s.length := by
  obtain ⟨hshape, hs⟩ := matchCiteAt_shape h
  obtain ⟨u, hu⟩ := citeShape_head hshape
  rw [hs, hu]
  simp only [List.cons_append, List.length_cons, List.length_append]
  omega

theorem noTag_cons {c : Char} {rest : List Char} (h : noTag (c :: rest) = true) :
    matchCiteAt (c :: rest) = none ∧ noTag rest = true := by
  simp only [noTag, Bool.and_eq_true, Option.isNone_iff_eq_none] at h
  exact h

theorem noTag_append {a b : List Char} (ha : a.all (fun c => c != '<') = true)
    (hb : noTag b = true) : noTag (a ++ b) = true := by
  induction a with
  | nil => simpa using hb
  | cons x a ih =>
    simp only [List.all_cons, Bool.and_eq_true] at ha
    simp only [List.cons_append, noTag, Bool.and_eq_true, Option.isNone_iff_eq_none]
    refine ⟨?_, ih ha.2⟩
    cases hm : matchCiteAt (x :: (a ++ b)) with
    | none => rfl
    | some v =>
      obtain ⟨whole, shortId, rem⟩ := v
      obtain ⟨u, hu⟩ := matchCiteAt_head hm
      cases hu
      exact absurd ha.1 (by simp)

theorem punct_not_ws {c : Char} (h : isPunctCh c = true) : isWs c = false := by
  simp only [isPunctCh, Bool.or_eq_true, decide_eq_true_eq] at h
  rcases h with ((h | h) | h) | h <;> subst h <;> decide

theorem punct_not_tagChar {c : Char} (h : isPunctCh c = true) : tagChar c = false := by
  simp only [isPunctCh, Bool.or_eq_true, decide_eq_true_eq] at h
  rcases h with ((h | h) | h) | h <;> subst h <;> decide

theorem lookup_clean {sources : List (String × SourceInfo)} {k : String} {v : SourceInfo}
    (hc : cleanSources sources = true) (h : sources.lookup k = some v) :
    cleanInfo v = true := by
  induction sources with
  | nil => simp [List.lookup] at h
  | cons p tl ih =>
    obtain ⟨a, b⟩ := p
    simp only [cleanSources, List.all_cons, Bool.and_eq_true] at hc
    simp only [List.lookup] at h
    cases hk : k == a with
    | true =>
      rw [hk] at h
      simp only [Option.some.injEq] at h
      subst h
      exact hc.1
    | false =>
      rw [hk] at h
      exact ih hc.2 h

theorem string_data_append (a b : String) : (a ++ b).data = a.data ++ b.data := rfl

theorem replChars (d u : String) :
    (" [" ++ d ++ "](" ++ u ++ ")").data =
      ' ' :: '[' :: (d.data ++ ']' :: '(' :: (u.data ++ [')'])) := by
  simp [string_data_append]

/-- When the record resolves, `tag_replacer` returns the Markdown link with
a leading space, and logs nothing. -/
theorem tagReplacer_ok_spec {sources : List (String × SourceInfo)} (whole : List Char)
    {shortId : String} (h : okRecord sources shortId = true) :
    ∃ info url, sources.lookup shortId = some info ∧ info.isEmptyDict = false ∧
      info.url = some url ∧
      tagReplacer sources whole shortId =
        .ok (' ' :: '[' :: ((displayOf info shortId).data ++ ']' :: '(' ::
          (url.data ++ [')'])), []) := by
  unfold okRecord at h
  cases hl : sources.lookup shortId with
  | none => rw [hl] at h; exact absurd h (by simp)
  | some info =>
    rw [hl] at h
    simp only [Bool.and_eq_true, Bool.not_eq_true'] at h
    obtain ⟨hemp, hurl⟩ := h
    cases hu : info.url with
    | none => rw [hu] at hurl; exact absurd hurl (by simp)
    | some url =>
      refine ⟨info, url, rfl, hemp, hu, ?_⟩
      unfold tagReplacer
      rw [hl]
      simp only [hemp, Bool.false_eq_true, if_false, hu]
      rw [replChars]

theorem displayOf_clean {info : SourceInfo} {shortId : String}
    (hc : cleanInfo info = true)
    (hid : shortId.data.all (fun c => c != '<') = true) :
    cleanStr (displayOf info shortId) = true := by
  simp only [cleanInfo, Bool.and_eq_true] at hc
  obtain ⟨⟨ht, hd⟩, hu⟩ := hc
  unfold displayOf
  cases hti : info.title with
  | some t => rw [hti] at ht; simpa using ht
  | none =>
    cases hdo : info.domain with
    | some d => rw [hdo] at hd; simpa [Option.getD] using hd
    | none => simpa [Option.getD, cleanStr] using hid

theorem repl_all_clean {d u : String}
    (hd : cleanStr d = true) (hu : cleanStr u = true) :
    (' ' :: '[' :: (d.data ++ ']' :: '(' :: (u.data ++ [')']))).all
      (fun c => c != '<') = true := by
  unfold cleanStr at hd hu
  simp only [List.all_cons, List.all_append, Bool.and_eq_true]
  refine ⟨by decide, by decide, hd, by decide, by decide, hu, by decide⟩

/-- Shape of the scanner output: either the input is returned unchanged, or
the output is a copied prefix of the input followed by a replacement, which
always starts with the barrier characters `' '`, `'['`. -/
theorem subCiteF_shape {sources : List (String × SourceInfo)} :
    ∀ fuel (s out : List Char) (warns : List String),
      resolvableF sources fuel s = true →
      subCiteF sources fuel s = .ok (out, warns) →
      out = s ∨ ∃ a b, (∃ z, s = a ++ z) ∧ out = a ++ ' ' :: '[' :: b := by
  intro fuel
  induction fuel with
  | zero =>
    intro s out warns hres hok
    cases s with
    | nil =>
      simp only [subCiteF, Except.ok.injEq, Prod.mk.injEq] at hok
      exact Or.inl hok.1.symm
    | cons c rest => simp [resolvableF] at hres
  | succ fuel ih =>
    intro s out warns hres hok
    cases s with
    | nil =>
      simp only [subCiteF, Except.ok.injEq, Prod.mk.injEq] at hok
      exact Or.inl hok.1.symm
    | cons c rest =>
      cases hm : matchCiteAt (c :: rest) with
      | some v =>
        obtain ⟨whole, shortId, rem⟩ := v
        simp only [resolvableF, hm, Bool.and_eq_true] at hres
        obtain ⟨hok', hres'⟩ := hres
        obtain ⟨info, url, hl, hemp, hu, htr⟩ := tagReplacer_ok_spec whole hok'
        simp only [subCiteF, hm, htr] at hok
        cases hrec : subCiteF sources fuel rem with
        | error e => rw [hrec] at hok; exact absurd hok (by simp)
        | ok p =>
          obtain ⟨out', warns'⟩ := p
          rw [hrec] at hok
          simp only [Except.ok.injEq, Prod.mk.injEq] at hok
          refine Or.inr ⟨[], (displayOf info shortId).data ++ ']' :: '(' ::
            (url.data ++ [')']) ++ out', ⟨c :: rest, rfl⟩, ?_⟩
          rw [← hok.1]
          simp
      | none =>
        simp only [resolvableF, hm] at hres
        simp only [subCiteF, hm] at hok
        cases hrec : subCiteF sources fuel rest with
        | error e => rw [hrec] at hok; exact absurd hok (by simp)
        | ok p =>
          obtain ⟨out', warns'⟩ := p
          rw [hrec] at hok
          simp only [Except.ok.injEq, Prod.mk.injEq] at hok
          rcases ih rest out' warns' hres hrec with h1 | ⟨a, b, ⟨z, hz⟩, hb⟩
          · rw [← hok.1, h1]
            exact Or.inl rfl
          · refine Or.inr ⟨c :: a, b, ⟨z, by rw [hz]; rfl⟩, ?_⟩
            rw [← hok.1, hb]
            rfl

/-- If the matcher fails at the head of the input, it still fails at the
head of the scanner output: a replacement cannot complete a partial tag,
because its barrier characters `' '`, `'['` cannot both occur at the end of
a match (a match ends in `'>'`) nor inside one (`'['` is not a tag char). -/
theorem matchCiteAt_none_extend {c : Char} {rest out : List Char}
    (hnone : matchCiteAt (c :: rest) = none)
    (hshape : out = rest ∨ ∃ a b, (∃ z, rest = a ++ z) ∧ out = a ++ ' ' :: '[' :: b) :
    matchCiteAt (c :: out) = none := by
  rcases hshape with rfl | ⟨a, b, ⟨z, hz⟩, hb⟩
  · exact hnone
  cases hm : matchCiteAt (c :: out) with
  | none => rfl
  | some v =>
    exfalso
    obtain ⟨P, shortId, rm⟩ := v
    obtain ⟨hPshape, hPeq⟩ := matchCiteAt_shape hm
    rw [hb] at hPeq
    have hPeq2 : P ++ rm = (c :: a) ++ (' ' :: '[' :: b) := by
      rw [← hPeq]
      rfl
    rcases List.append_eq_append_iff.mp hPeq2 with ⟨a2, hca, _⟩ | ⟨c2, hPa, hbar⟩
    · -- the match fits inside the copied prefix: it existed in the input
      have hin : c :: rest = P ++ (a2 ++ z) := by
        rw [hz, show c :: (a ++ z) = (c :: a) ++ z from rfl, hca]
        simp
      rw [hin, citeShape_replay hPshape (a2 ++ z)] at hnone
      exact absurd hnone (by simp)
    · cases c2 with
      | nil =>
        -- P = c :: a: the match already existed in the input
        rw [List.append_nil] at hPa
        have hin : c :: rest = P ++ z := by
          rw [hz, hPa]
          rfl
        rw [hin, citeShape_replay hPshape z] at hnone
        exact absurd hnone (by simp)
      | cons x cs =>
        cases cs with
        | nil =>
          -- P ends with the barrier space, but every match ends with '>'
          have hx : x = ' ' := by
            simp only [List.singleton_append, List.cons.injEq] at hbar
            exact hbar.1.symm
          subst hx
          have hlast := citeShape_getLast hPshape
          rw [hPa, show (c :: a) ++ [' '] = ((c :: a) ++ []) ++ [' '] by simp,
            getLast?_concat] at hlast
          exact absurd hlast (by simp)
        | cons y cs2 =>
          -- '[' occurs inside the match, impossible
          have hxy : x = ' ' ∧ y = '[' := by
            simp only [List.cons_append, List.cons.injEq] at hbar
            exact ⟨hbar.1.symm, hbar.2.1.symm⟩
          obtain ⟨rfl, rfl⟩ := hxy
          have halpha := citeShape_alpha hPshape
          rw [hPa] at halpha
          simp only [List.all_append, List.all_cons, Bool.and_eq_true] at halpha
          exact absurd halpha.2.2.1 (by decide)

/-- Main lemma for the first pass: with clean sources and all tags
resolvable, the scanner succeeds and its output contains no cite tag. -/
theorem subCiteF_ok_noTag {sources : List (String × SourceInfo)}
    (hclean : cleanSources sources = true) :
    ∀ fuel (s : List Char), s.length ≤ fuel → resolvableF sources fuel s = true →
      ∃ out warns, subCiteF sources fuel s = .ok (out, warns) ∧ noTag out = true := by
  intro fuel
  induction fuel with
  | zero =>
    intro s hlen _
    have hs : s = [] := List.eq_nil_of_length_eq_zero (Nat.le_zero.mp hlen)
    subst hs
    exact ⟨[], [], rfl, rfl⟩
  | succ fuel ih =>
    intro s hlen hres
    cases s with
    | nil => exact ⟨[], [], rfl, rfl⟩
    | cons c rest =>
      cases hm : matchCiteAt (c :: rest) with
      | some v =>
        obtain ⟨whole, shortId, rem⟩ := v
        simp only [resolvableF, hm, Bool.and_eq_true] at hres
        obtain ⟨hok, hres2⟩ := hres
        obtain ⟨info, url, hl, hemp, huu, htr⟩ := tagReplacer_ok_spec whole hok
        have hlt : rem.length < (c :: rest).length := matchCiteAt_lt hm
        have hlen2 : rem.length ≤ fuel := by
          simp only [List.length_cons] at hlt hlen
          omega
        obtain ⟨out2, warns2, hok2, hnt2⟩ := ih rem hlen2 hres2
        refine ⟨(' ' :: '[' :: ((displayOf info shortId).data ++ ']' :: '(' ::
          (url.data ++ [')']))) ++ out2, warns2, ?_, ?_⟩
        · simp only [subCiteF, hm, htr, hok2, List.nil_append]
        · have hinfo := lookup_clean hclean hl
          have hidc : shortId.data.all (fun c => c != '<') = true :=
            citeShape_id_clean (matchCiteAt_shape hm).1
          have hdisp := displayOf_clean hinfo hidc
          have hurlc : cleanStr url = true := by
            have h2 := hinfo
            simp only [cleanInfo, Bool.and_eq_true] at h2
            have h3 := h2.2
            rw [huu] at h3
            simpa [cleanOptStr] using h3
          exact noTag_append (repl_all_clean hdisp hurlc) hnt2
      | none =>
        simp only [resolvableF, hm] at hres
        have hlen2 : rest.length ≤ fuel := by
          simp only [List.length_cons] at hlen
          omega
        obtain ⟨out2, warns2, hok2, hnt2⟩ := ih rest hlen2 hres
        refine ⟨c :: out2, warns2, ?_, ?_⟩
        · simp only [subCiteF, hm, hok2]
        · have hshp := subCiteF_shape fuel rest out2 warns2 hres hok2
          have hnone2 := matchCiteAt_none_extend hm hshp
          simp only [noTag, hnone2, Option.isNone_none, Bool.true_and]
          exact hnt2

/-- With enough fuel, a report with no cite tag passes the first
substitution unchanged, with no warnings. -/
theorem subCiteF_id_of_noTag (sources : List (String × SourceInfo)) :
    ∀ fuel (s : List Char), s.length ≤ fuel → noTag s = true →
      subCiteF sources fuel s = .ok (s, []) := by
  intro fuel
  induction fuel with
  | zero =>
    intro s hlen _
    have hs : s = [] := List.eq_nil_of_length_eq_zero (Nat.le_zero.mp hlen)
    subst hs
    rfl
  | succ fuel ih =>
    intro s hlen hnt
    cases s with
    | nil => rfl
    | cons c rest =>
      obtain ⟨hm, hrest⟩ := noTag_cons hnt
      have hlen2 : rest.length ≤ fuel := by
        simp only [List.length_cons] at hlen
        omega
      simp only [subCiteF, hm, ih rest hlen2 hrest]

theorem followedByPunct_collapse_head : ∀ {s : List Char},
    followedByPunct s = true →
    ∃ p b, isPunctCh p = true ∧ collapseWsPunct s = p :: b := by
  intro s
  induction s with
  | nil => intro h; simp [followedByPunct] at h
  | cons c rest ih =>
    intro h
    simp only [followedByPunct] at h
    by_cases hp : isPunctCh c = true
    · refine ⟨c, collapseWsPunct rest, hp, ?_⟩
      have hws : isWs c = false := punct_not_ws hp
      simp [collapseWsPunct, hws]
    · rw [if_neg hp] at h
      by_cases hw : isWs c = true
      · rw [if_pos hw] at h
        obtain ⟨p, b, hp2, hc2⟩ := ih h
        exact ⟨p, b, hp2, by simp [collapseWsPunct, hw, h, hc2]⟩
      · rw [if_neg hw] at h
        exact absurd h (by simp)

/-- Shape of the collapse output: either the input unchanged, or a copied
prefix of the input followed by a punctuation character. -/
theorem collapse_shape : ∀ s : List Char, collapseWsPunct s = s ∨
    ∃ a p b, isPunctCh p = true ∧ (∃ z, s = a ++ z) ∧
      collapseWsPunct s = a ++ p :: b := by
  intro s
  induction s with
  | nil => exact Or.inl rfl
  | cons c rest ih =>
    cases hfb : isWs c && followedByPunct rest with
    | true =>
      simp only [Bool.and_eq_true] at hfb
      obtain ⟨p, b, hp, hcol⟩ := followedByPunct_collapse_head hfb.2
      refine Or.inr ⟨[], p, b, hp, ⟨c :: rest, rfl⟩, ?_⟩
      simp [collapseWsPunct, hfb.1, hfb.2, hcol]
    | false =>
      rcases ih with h1 | ⟨a, p, b, hp, ⟨z, hz⟩, hcol⟩
      · exact Or.inl (by simp [collapseWsPunct, hfb, h1])
      · refine Or.inr ⟨c :: a, p, b, hp, ⟨z, by rw [hz]; rfl⟩, ?_⟩
        simp [collapseWsPunct, hfb, hcol]

/-- Analogue of `matchCiteAt_none_extend` for the collapse pass: removed
whitespace is always chased by a punctuation character, which cannot occur
inside a cite tag. -/
theorem matchCiteAt_none_extend_punct {c : Char} {rest out : List Char}
    (hnone : matchCiteAt (c :: rest) = none)
    (hshape : out = rest ∨ ∃ a p b, isPunctCh p = true ∧ (∃ z, rest = a ++ z) ∧
      out = a ++ p :: b) :
    matchCiteAt (c :: out) = none := by
  rcases hshape with rfl | ⟨a, p, b, hp, ⟨z, hz⟩, hb⟩
  · exact hnone
  cases hm : matchCiteAt (c :: out) with
  | none => rfl
  | some v =>
    exfalso
    obtain ⟨P, shortId, rm⟩ := v
    obtain ⟨hPshape, hPeq⟩ := matchCiteAt_shape hm
    rw [hb] at hPeq
    have hPeq2 : P ++ rm = (c :: a) ++ (p :: b) := by
      rw [← hPeq]
      rfl
    rcases List.append_eq_append_iff.mp hPeq2 with ⟨a2, hca, _⟩ | ⟨c2, hPa, hbar⟩
    · have hin : c :: rest = P ++ (a2 ++ z) := by
        rw [hz, show c :: (a ++ z) = (c :: a) ++ z from rfl, hca]
        simp
      rw [hin, citeShape_replay hPshape (a2 ++ z)] at hnone
      exact absurd hnone (by simp)
    · cases c2 with
      | nil =>
        rw [List.append_nil] at hPa
        have hin : c :: rest = P ++ z := by
          rw [hz, hPa]
          rfl
        rw [hin, citeShape_replay hPshape z] at hnone
        exact absurd hnone (by simp)
      | cons x cs =>
        have hx : x = p := by
          simp only [List.cons_append, List.cons.injEq] at hbar
          exact hbar.1.symm
        subst hx
        have halpha := citeShape_alpha hPshape
        rw [hPa] at halpha
        simp only [List.all_append, List.all_cons, Bool.and_eq_true] at halpha
        have h1 := halpha.2.1
        rw [punct_not_tagChar hp] at h1
        exact absurd h1 (by simp)

/-- The collapse pass cannot create a cite tag. -/
theorem noTag_collapse : ∀ {s : List Char}, noTag s = true →
    noTag (collapseWsPunct s) = true := by
  intro s
  induction s with
  | nil => intro h; exact h
  | cons c rest ih =>
    intro h
    obtain ⟨hm, hrest⟩ := noTag_cons h
    cases hfb : isWs c && followedByPunct rest with
    | true =>
      have hdrop : collapseWsPunct (c :: rest) = collapseWsPunct rest := by
        simp only [Bool.and_eq_true] at hfb
        simp [collapseWsPunct, hfb.1, hfb.2]
      rw [hdrop]
      exact ih hrest
    | false =>
      have hkeep : collapseWsPunct (c :: rest) = c :: collapseWsPunct rest := by
        simp [collapseWsPunct, hfb]
      rw [hkeep]
      have hnone2 := matchCiteAt_none_extend_punct hm (collapse_shape rest)
      simp only [noTag, hnone2, Option.isNone_none, Bool.true_and]
      exact ih hrest

theorem ws_not_punct {c : Char} (h : isWs c = true) : isPunctCh c = false := by
  simp only [isWs, Bool.or_eq_true, decide_eq_true_eq] at h
  rcases h with ((((h | h) | h) | h) | h) | h <;> subst h <;> decide

theorem followedByPunct_ws_punct {w : List Char} {p : Char} {b : List Char}
    (hw : w.all isWs = true) (hp : isPunctCh p = true) :
    followedByPunct (w ++ p :: b) = true := by
  induction w with
  | nil => simp [followedByPunct, hp]
  | cons x w2 ih =>
    simp only [List.all_cons, Bool.and_eq_true] at hw
    simp only [List.cons_append, followedByPunct, ws_not_punct hw.1,
      Bool.false_eq_true, if_false, hw.1, if_true]
    exact ih hw.2

theorem followedByPunct_congr {w : List Char} {p : Char} {b : List Char}
    (hw : w.all isWs = true) (hp : isPunctCh p = true) :
    ∀ a : List Char, followedByPunct (a ++ (w ++ p :: b)) =
      followedByPunct (a ++ p :: b) := by
  intro a
  induction a with
  | nil =>
    simp only [List.nil_append]
    rw [followedByPunct_ws_punct hw hp]
    simp [followedByPunct, hp]
  | cons y a2 ih =>
    simp only [List.cons_append, followedByPunct, List.append_eq]
    by_cases hy : isPunctCh y = true
    · rw [if_pos hy, if_pos hy]
    · rw [if_neg hy, if_neg hy]
      by_cases hwy : isWs y = true
      · rw [if_pos hwy, if_pos hwy, ih]
      · rw [if_neg hwy, if_neg hwy]

theorem collapse_ws_before_punct_nil {w : List Char} {p : Char} {b : List Char}
    (hw : w.all isWs = true) (hp : isPunctCh p = true) :
    collapseWsPunct (w ++ p :: b) = collapseWsPunct (p :: b) := by
  induction w with
  | nil => rfl
  | cons x w2 ih =>
    simp only [List.all_cons, Bool.and_eq_true] at hw
    have hc1 : (isWs x && followedByPunct (w2 ++ p :: b)) = true := by
      rw [hw.1, followedByPunct_ws_punct hw.2 hp]
      rfl
    have hstep : collapseWsPunct (x :: (w2 ++ p :: b)) =
        collapseWsPunct (w2 ++ p :: b) := by
      simp only [collapseWsPunct, hc1, if_true]
    rw [List.cons_append, hstep]
    exact ih hw.2

/-! ### Claim theorems -/

/-- C1 counterexample: on the spec's example input the callback produces
"See  [Example](https://ex.com)." with TWO spaces before the link (the
replacement prepends a space and the original space before the tag is
kept), not the single-space output the claim states. -/
theorem c1_counterexample :
    (citation_replacement_callback ⟨some "See <cite source=\"src-1\"/> .",
        some [("src-1", ⟨some "Example", none, some "https://ex.com"⟩)],
        none, []⟩).map (fun o => o.contentText) =
      .ok "See  [Example](https://ex.com)." ∧
    ("See  [Example](https://ex.com)." : String) ≠
      "See [Example](https://ex.com)." := by
  exact ⟨rfl, by decide⟩

/-- C1 amended: on the report `"See <cite source=\"src-1\"/> ."` with
sources mapping `src-1 ↦ (title "Example", url "https://ex.com")`, the
citation replacement produces exactly `"See  [Example](https://ex.com)."`
(two spaces before the link: the Markdown replacement carries a leading
space and only whitespace before `.,;:` is collapsed). -/
theorem c1_exact_output :
    (citation_replacement_callback ⟨some "See <cite source=\"src-1\"/> .",
        some [("src-1", ⟨some "Example", none, some "https://ex.com"⟩)],
        none, []⟩).map (fun o => o.contentText) =
      .ok "See  [Example](https://ex.com)." := rfl

/-- C2 counterexample: the malformed tag `<cite src="src-1"/>` (attribute
`src` instead of `source`) is not matched by the pattern, is no recognized
tag (`noTag` holds), and propagates verbatim into the final output. -/
theorem c2_counterexample :
    noTag ("bad <cite src=\"src-1\"/> tag" : String).data = true ∧
    (citation_replacement_callback ⟨some "bad <cite src=\"src-1\"/> tag",
        some [], none, []⟩).map (fun o => o.contentText) =
      .ok "bad <cite src=\"src-1\"/> tag" := by
  exact ⟨rfl, rfl⟩

/-- C2 amended: malformed citation tags DO propagate: a report in which no
position matches the recognized tag pattern passes through the citation
substitution unchanged (subject only to the whitespace-before-punctuation
collapse), with no warnings. -/
theorem c2_malformed_passthrough (st : AgentState) (report : String)
    (hrep : st.final_cited_report = some report)
    (hnt : noTag report.data = true) :
    citation_replacement_callback st =
      .ok ⟨{ st with
          final_report_with_citations :=
            some (String.mk (collapseWsPunct report.data)) },
        String.mk (collapseWsPunct report.data), []⟩ := by
  have hid := subCiteF_id_of_noTag (st.sources.getD [])
    report.data.length report.data le_rfl hnt
  unfold citation_replacement_callback subCite
  rw [hrep]
  simp only [Option.getD_some, hid]

/-- Witness for C2 amended at the concrete malformed-tag report. -/
theorem c2_malformed_passthrough_witness :
    (citation_replacement_callback ⟨some "bad <cite src=\"src-1\"/> tag",
        some [], none, []⟩).map (fun o => o.contentText) =
      .ok "bad <cite src=\"src-1\"/> tag" := by
  rw [c2_malformed_passthrough ⟨some "bad <cite src=\"src-1\"/> tag",
    some [], none, []⟩ "bad <cite src=\"src-1\"/> tag" rfl (by decide)]
  rfl

/-- C3 counterexample: all tags of the report are well-formed and resolve
in the sources mapping, yet the output still contains a `<cite .../>` tag,
because the `url` field of the record itself contains one and is spliced
into the output verbatim. -/
theorem c3_counterexample :
    allResolvable [("src-1", ⟨some "x", none, some "<cite source=\"src-1\"/>"⟩)]
      ("<cite source=\"src-1\"/>" : String).data = true ∧
    (citation_replacement_callback ⟨some "<cite source=\"src-1\"/>",
        some [("src-1", ⟨some "x", none, some "<cite source=\"src-1\"/>"⟩)],
        none, []⟩).map (fun o => noTag o.contentText.data) = .ok false := by
  exact ⟨rfl, rfl⟩

/-- C3 amended: if every tag found by the scanner resolves to a non-empty
record carrying a url (so no tag is dropped and no KeyError is raised) and
no record field contains the character `<`, then the callback succeeds and
its output contains no `<cite .../>` tag. -/
theorem c3_no_tags_remain (st : AgentState) (report : String)
    (srcs : List (String × SourceInfo))
    (hrep : st.final_cited_report = some report)
    (hsrc : st.sources = some srcs)
    (hclean : cleanSources srcs = true)
    (hres : allResolvable srcs report.data = true) :
    ∃ out, citation_replacement_callback st = .ok out ∧
      noTag out.contentText.data = true := by
  obtain ⟨o, w, hok, hnt⟩ :=
    subCiteF_ok_noTag hclean report.data.length report.data le_rfl hres
  refine ⟨⟨{ st with
      final_report_with_citations := some (String.mk (collapseWsPunct o)) },
    String.mk (collapseWsPunct o), w⟩, ?_, ?_⟩
  · unfold citation_replacement_callback subCite
    rw [hrep, hsrc]
    simp only [Option.getD_some, hok]
  · show noTag (String.mk (collapseWsPunct o)).data = true
    exact noTag_collapse hnt

/-- Witness for C3 amended at a concrete well-formed, resolvable report. -/
theorem c3_no_tags_remain_witness :
    ∃ out, citation_replacement_callback ⟨some "See <cite source=\"src-1\"/> .",
        some [("src-1", ⟨some "Example", none, some "https://ex.com"⟩)],
        none, []⟩ = .ok out ∧ noTag out.contentText.data = true :=
  c3_no_tags_remain ⟨some "See <cite source=\"src-1\"/> .",
    some [("src-1", ⟨some "Example", none, some "https://ex.com"⟩)], none, []⟩
    "See <cite source=\"src-1\"/> ."
    [("src-1", ⟨some "Example", none, some "https://ex.com"⟩)]
    rfl rfl rfl rfl

/-- C4: a well-formed tag whose id is absent from the sources mapping is
removed (nothing is inserted in its place: the output is exactly the
output for the remainder), a warning naming the whole tag is logged, and
no exception is raised. -/
theorem c4_unknown_id_removed (sources : List (String × SourceInfo)) (fuel : Nat)
    (s whole rem : List Char) (shortId : String)
    (hm : matchCiteAt s = some (whole, shortId, rem))
    (habsent : sources.lookup shortId = none) :
    tagReplacer sources whole shortId = .ok ([], [invalidTagWarning whole]) ∧
    subCiteF sources (fuel + 1) s =
      (subCiteF sources fuel rem).map
        (fun r => (r.1, invalidTagWarning whole :: r.2)) := by
  have htr : tagReplacer sources whole shortId =
      .ok ([], [invalidTagWarning whole]) := by
    unfold tagReplacer
    rw [habsent]
  refine ⟨htr, ?_⟩
  obtain ⟨u, hu⟩ := matchCiteAt_head hm
  subst hu
  simp only [subCiteF, hm, htr]
  cases hrec : subCiteF sources fuel rem with
  | error e => rfl
  | ok p =>
    obtain ⟨o, w⟩ := p
    rfl

/-- Witness for C4 at the spec's example: unknown id `src-9`, empty sources
mapping; the tag is removed, a warning logged, and the run returns ok. -/
theorem c4_unknown_id_removed_witness :
    subCiteF [] 23 ("<cite source=\"src-9\"/>" : String).data =
      .ok ([], [invalidTagWarning ("<cite source=\"src-9\"/>" : String).data]) := by
  have h := c4_unknown_id_removed [] 22 ("<cite source=\"src-9\"/>" : String).data
    ("<cite source=\"src-9\"/>" : String).data [] "src-9" rfl rfl
  rw [h.2]
  rfl

/-- C5: for a resolvable record, the display text of the emitted Markdown
link is the `title` when present, else the `domain` when present, else the
raw short id itself. -/
theorem c5_display_precedence (sources : List (String × SourceInfo))
    (whole : List Char) (shortId : String) (info : SourceInfo) (url : String)
    (hl : sources.lookup shortId = some info)
    (hemp : info.isEmptyDict = false)
    (hurl : info.url = some url) :
    (∀ t, info.title = some t →
      tagReplacer sources whole shortId =
        .ok ((" [" ++ t ++ "](" ++ url ++ ")").data, [])) ∧
    (info.title = none → ∀ d, info.domain = some d →
      tagReplacer sources whole shortId =
        .ok ((" [" ++ d ++ "](" ++ url ++ ")").data, [])) ∧
    (info.title = none → info.domain = none →
      tagReplacer sources whole shortId =
        .ok ((" [" ++ shortId ++ "](" ++ url ++ ")").data, [])) := by
  refine ⟨?_, ?_, ?_⟩
  · intro t ht
    unfold tagReplacer displayOf
    rw [hl]
    simp only [hemp, Bool.false_eq_true, if_false, hurl, ht, Option.getD_some]
  · intro ht d hd
    unfold tagReplacer displayOf
    rw [hl]
    simp only [hemp, Bool.false_eq_true, if_false, hurl, ht, hd, Option.getD_some,
      Option.getD_none]
  · intro ht hd
    unfold tagReplacer displayOf
    rw [hl]
    simp only [hemp, Bool.false_eq_true, if_false, hurl, ht, hd, Option.getD_none]

/-- Witness for C5: the three precedence cases at concrete records. -/
theorem c5_display_precedence_witness :
    tagReplacer [("src-1", ⟨some "T", some "D", some "u"⟩)] [] "src-1" =
      .ok ((" [T](u)" : String).data, []) ∧
    tagReplacer [("src-1", ⟨none, some "D", some "u"⟩)] [] "src-1" =
      .ok ((" [D](u)" : String).data, []) ∧
    tagReplacer [("src-1", ⟨none, none, some "u"⟩)] [] "src-1" =
      .ok ((" [src-1](u)" : String).data, []) := by
  refine ⟨?_, ?_, ?_⟩
  · exact (c5_display_precedence [("src-1", ⟨some "T", some "D", some "u"⟩)]
      [] "src-1" ⟨some "T", some "D", some "u"⟩ "u" rfl rfl rfl).1 "T" rfl
  · exact (c5_display_precedence [("src-1", ⟨none, some "D", some "u"⟩)]
      [] "src-1" ⟨none, some "D", some "u"⟩ "u" rfl rfl rfl).2.1 rfl "D" rfl
  · exact (c5_display_precedence [("src-1", ⟨none, none, some "u"⟩)]
      [] "src-1" ⟨none, none, some "u"⟩ "u" rfl rfl rfl).2.2 rfl rfl

/-- C6: in the second substitution pass, any run of whitespace immediately
preceding one of `.`, `,`, `;`, `:` is removed. -/
theorem c6_ws_collapse (a w : List Char) (p : Char) (b : List Char)
    (hw : w.all isWs = true) (hp : isPunctCh p = true) :
    collapseWsPunct (a ++ (w ++ p :: b)) = collapseWsPunct (a ++ p :: b) := by
  induction a with
  | nil =>
    simp only [List.nil_append]
    exact collapse_ws_before_punct_nil hw hp
  | cons y a2 ih =>
    simp only [List.cons_append, collapseWsPunct, List.append_eq]
    rw [followedByPunct_congr hw hp a2, ih]

/-- Witness for C6 at the spec's two examples: `"result ."` → `"result."`
and `"foo  ,"` → `"foo,"`. -/
theorem c6_ws_collapse_witness :
    collapseWsPunct (("result ." : String).data) = ("result." : String).data ∧
    collapseWsPunct (("foo  ," : String).data) = ("foo," : String).data := by
  constructor
  · rw [show ("result ." : String).data =
      ("result" : String).data ++ ([' '] ++ '.' :: []) from rfl,
      c6_ws_collapse ("result" : String).data [' '] '.' [] (by decide) (by decide)]
    rfl
  · rw [show ("foo  ," : String).data =
      ("foo" : String).data ++ ([' ', ' '] ++ ',' :: []) from rfl,
      c6_ws_collapse ("foo" : String).data [' ', ' '] ',' [] (by decide) (by decide)]
    rfl

/-- C7: the research pipeline is declared as the fixed sequence: section
planner, section researcher, a refinement loop capped at
`config.max_search_iterations = 5` iterations running evaluator, escalation
checker and enhanced search executor in order, then the report composer. -/
theorem c7_pipeline_structure :
    research_pipeline = .seq "research_pipeline"
      [.basic "section_planner",
       .basic "section_researcher",
       .loop "iterative_refinement_loop" 5
         [.basic "research_evaluator",
          .basic "escalation_checker",
          .basic "enhanced_search_executor"],
       .basic "report_composer"] ∧
    config.max_search_iterations = 5 :=
  ⟨rfl, rfl⟩

/-- C8: the deployment metadata object contains exactly the keys
`remote_agent_engine_id`, `agent_engine_id`, `deployment_timestamp`,
`agent_name`, `project`, `location`, and the nested `memory_configuration`
and `session_service` object blocks, for every deployment input. -/
theorem c8_metadata_keys (d : DeploymentInputs) :
    (deployment_metadata d).map Prod.fst =
      ["remote_agent_engine_id", "agent_engine_id", "deployment_timestamp",
       "agent_name", "project", "location", "memory_configuration",
       "session_service"] ∧
    (deployment_metadata d).lookup "memory_configuration" =
      some (.obj
        [("enabled", .bool true),
         ("service", .str "VertexAiMemoryBankService"),
         ("generation_interval", .str d.memory_generation_interval),
         ("agent_has_memory_tool", .bool true),
         ("automatic_generation", .bool true)]) ∧
    (deployment_metadata d).lookup "session_service" =
      some (.obj
        [("type", .str "VertexAiSessionService"),
         ("persistent", .bool true),
         ("configuration", .obj
            [("project", .str d.project),
             ("location", .str d.location),
             ("agent_engine_id", .str (agentEngineIdOf d.resource_name))])]) :=
  ⟨rfl, rfl, rfl⟩

/-- C9: the lookup `source_info['url']` is unguarded: on a report whose tag
resolves to a present, non-empty record that lacks the `url` field, the
callback raises `KeyError` instead of returning. -/
theorem c9_keyerror_no_url :
    citation_replacement_callback ⟨some "See <cite source=\"src-1\"/> .",
        some [("src-1", ⟨some "Example", none, none⟩)], none, []⟩ =
      .error "KeyError: 'url'" := rfl

/-- C10: on success the callback writes only `final_report_with_citations`:
`final_cited_report`, `sources` and all other state keys are unchanged, and
the returned content text equals the stored value. -/
theorem c10_frame (st : AgentState) (out : CallbackOutput)
    (h : citation_replacement_callback st = .ok out) :
    out.newState.final_cited_report = st.final_cited_report ∧
    out.newState.sources = st.sources ∧
    out.newState.otherKeys = st.otherKeys ∧
    out.newState.final_report_with_citations = some out.contentText := by
  unfold citation_replacement_callback at h
  simp only at h
  cases hs : subCite (st.sources.getD []) (st.final_cited_report.getD "").data with
  | error e => rw [hs] at h; exact absurd h (by simp)
  | ok p =>
    obtain ⟨o, w⟩ := p
    rw [hs] at h
    simp only [Except.ok.injEq] at h
    subst h
    exact ⟨rfl, rfl, rfl, rfl⟩

/-- Witness for C10 at a concrete state carrying an unrelated key. -/
theorem c10_frame_witness :
    (citation_replacement_callback ⟨some "hi", some [], none, [("k", "v")]⟩ =
      .ok ⟨⟨some "hi", some [], some "hi", [("k", "v")]⟩, "hi", []⟩) ∧
    (⟨⟨some "hi", some [], some "hi", [("k", "v")]⟩, "hi",
      []⟩ : CallbackOutput).newState.otherKeys = [("k", "v")] := by
  refine ⟨rfl, ?_⟩
  exact (c10_frame ⟨some "hi", some [], none, [("k", "v")]⟩
    ⟨⟨some "hi", some [], some "hi", [("k", "v")]⟩, "hi", []⟩ rfl).2.2.1

end AdkSpec
